import Mathlib

/-!
Verification of the Wordle-Solver-App engine (src/App.jsx).

The engine consists of four pure functions:
  feedbackFor (App.jsx lines 12-40), filterCandidates (48-64),
  computeEntropyForGuess (67-81), mostLikelyCandidate (83-87),
plus the ranking effect in the App component (137-143) which sorts
suggestions with the comparator (a, b) => b.bits - a.bits.

Words are JavaScript strings, embedded as Lean String.  Array indexing
g[i] in JavaScript yields undefined when i is out of range, and
undefined === undefined is true while undefined === c is false for any
character c; this is embedded by indexing into Option Char with get?,
whose equality has exactly these properties.  Number is embedded as the
real numbers, Math.log2 as Real.logb 2.  Array.prototype.sort is, per
the ECMAScript standard, a stable sort; with the numeric comparator
(a, b) => b.bits - a.bits its result is the unique stable descending
reordering by bits, embedded below as insertion sort on the reflexive
relation sugGE.
-/

namespace Wordle

/-- Embedding of the Result enum of App.jsx lines 5-9. -/
inductive Result where
  | CORRECT
  | PRESENT
  | ABSENT
deriving DecidableEq

/-- JavaScript indexing arr[i] into an array of characters: some value in
range, and the (self-equal) undefined out of range, embedded as none. -/
def getJS (l : List Char) (i : Nat) : Option Char :=
  l.get? i

/-- One iteration of the first pass of feedbackFor (App.jsx lines 19-24):
if g[i] === a[i] mark res[i] = CORRECT and aUsed[i] = true.  The state is
the pair (res, aUsed). -/
def pass1Step (g a : List Char) (st : List Result × List Bool) (i : Nat) :
    List Result × List Bool :=
  if getJS g i = getJS a i then (st.1.set i Result.CORRECT, st.2.set i true) else st

/-- First pass of feedbackFor (App.jsx lines 15-24): res starts as five
ABSENT entries, aUsed as five false entries, then the loop for i in 0..4. -/
def pass1 (g a : List Char) : List Result × List Bool :=
  (List.range 5).foldl (pass1Step g a) (List.replicate 5 Result.ABSENT, List.replicate 5 false)

/-- Inner loop of the second pass of feedbackFor (App.jsx lines 29-36):
scan the remaining answer indices j; skip consumed ones; at the first
unconsumed j with g[i] === a[j] set res[i] = PRESENT, consume j and break. -/
def scanLoop (gi : Option Char) (a : List Char) (i : Nat)
    (st : List Result × List Bool) : List Nat → List Result × List Bool
  | [] => st
  | j :: js =>
    if st.2.getD j false then scanLoop gi a i st js
    else if gi = getJS a j then (st.1.set i Result.PRESENT, st.2.set j true)
    else scanLoop gi a i st js

/-- One iteration of the second pass of feedbackFor (App.jsx lines 27-37):
positions already CORRECT are skipped, otherwise the inner scan runs over
j in 0..4. -/
def pass2Step (g a : List Char) (st : List Result × List Bool) (i : Nat) :
    List Result × List Bool :=
  if st.1.getD i Result.ABSENT = Result.CORRECT then st
  else scanLoop (getJS g i) a i st (List.range 5)

/-- Core of feedbackFor on character lists: first pass, then the second
pass for i in 0..4, returning the res component. -/
def feedbackForL (g a : List Char) : List Result :=
  ((List.range 5).foldl (pass2Step g a) (pass1 g a)).1

/-- Embedding of feedbackFor (App.jsx lines 12-40).  guess.split("") is
the character list of the string. -/
def feedbackFor (guess answer : String) : List Result :=
  feedbackForL guess.data answer.data

/-- Spec section 4.1, pass 2: scan answer positions left-to-right for the
first unconsumed position holding the guessed letter. -/
def findFirstUnused (gi : Option Char) (a : List Char) (used : List Bool) : Option Nat :=
  (List.range 5).find? (fun j => !(used.getD j false) && (gi == getJS a j))

/-- Spec section 4.1, one position of pass 2, stated with the words of the
spec: for each position i not already CORRECT, if guess[i] equals an
unconsumed answer letter, set result[i] = PRESENT and consume that answer
position (first unconsumed match wins), otherwise result[i] = ABSENT. -/
def pass2StepSpec (g a : List Char) (st : List Result × List Bool) (i : Nat) :
    List Result × List Bool :=
  if st.1.getD i Result.ABSENT = Result.CORRECT then st
  else
    match findFirstUnused (getJS g i) a st.2 with
    | some j => (st.1.set i Result.PRESENT, st.2.set j true)
    | none => (st.1.set i Result.ABSENT, st.2)

/-- Spec section 4.1: the classify operation as described by the spec,
pass 1 (identical wording to the code) followed by the find-first-match
formulation of pass 2. -/
def classifySpec (guess answer : String) : List Result :=
  ((List.range 5).foldl (pass2StepSpec guess.data answer.data) (pass1 guess.data answer.data)).1

/-- String form of one Result value, as produced by joining the enum
string constants of App.jsx lines 5-9. -/
def resultWord : Result → String
  | Result.CORRECT => "CORRECT"
  | Result.PRESENT => "PRESENT"
  | Result.ABSENT => "ABSENT"

/-- Embedding of feedbackKey (App.jsx lines 43-45): feedback.join("|"). -/
def feedbackKey (feedback : List Result) : String :=
  String.intercalate "|" (feedback.map resultWord)

/-- Embedding of the HistoryEntry objects { guess, feedback } built at
App.jsx line 152. -/
structure HistoryEntry where
  guess : String
  feedback : List Result

/-- Embedding of the inline array comparison of filterCandidates
(App.jsx lines 57-60): first compare lengths, then compare entries at the
indices of the expected array. -/
def feedbackEq (expected actual : List Result) : Bool :=
  if expected.length ≠ actual.length then false
  else (List.range expected.length).all
    (fun i => expected.getD i Result.ABSENT == actual.getD i Result.ABSENT)

/-- Embedding of the candidate predicate of filterCandidates (App.jsx
lines 52-62): every history entry must reproduce its recorded feedback. -/
def matchesAll (history : List HistoryEntry) (candidate : String) : Bool :=
  history.all (fun h => feedbackEq h.feedback (feedbackFor h.guess candidate))

/-- Embedding of filterCandidates (App.jsx lines 48-64). -/
def filterCandidates (words : List String) (history : List HistoryEntry) : List String :=
  if words.isEmpty then []
  else if history.isEmpty then words
  else words.filter (matchesAll history)

/-- Contribution of one feedback group of size c among n candidates to the
entropy (App.jsx line 78): with p = c / n, the value -p * log2 p. -/
noncomputable def entTerm (c n : ℕ) : ℝ :=
  -(((c : ℝ) / (n : ℝ)) * Real.logb 2 ((c : ℝ) / (n : ℝ)))

/-- Entropy of a list of group keys (App.jsx lines 69-79): the counts
object maps each distinct key to its number of occurrences, and the loop
over its keys sums the corresponding terms. -/
noncomputable def entropyOfKeys (keys : List String) (n : ℕ) : ℝ :=
  ∑ k ∈ keys.toFinset, entTerm (keys.count k) n

/-- Embedding of computeEntropyForGuess (App.jsx lines 67-81): group the
candidates by the key of the feedback they would produce against the
guess, and sum -p * log2 p over the distinct keys, where p is the
relative frequency of the key. -/
noncomputable def computeEntropyForGuess (guess : String) (candidates : List String) : ℝ :=
  if candidates.isEmpty then 0
  else entropyOfKeys (candidates.map (fun ans => feedbackKey (feedbackFor guess ans)))
    candidates.length

/-- Embedding of mostLikelyCandidate (App.jsx lines 83-87): null on an
empty list, otherwise candidates[0]. -/
def mostLikelyCandidate (candidates : List String) : Option String :=
  if candidates.isEmpty then none else candidates.head?

/-- Embedding of the suggestion records { guess, bits } built at App.jsx
line 140. -/
structure Suggestion where
  guess : String
  bits : ℝ

/-- Ordering used by the ranking effect (App.jsx line 142): the comparator
(a, b) => b.bits - a.bits places x before y exactly when y.bits <= x.bits. -/
def sugGE (x y : Suggestion) : Prop :=
  y.bits ≤ x.bits

noncomputable instance : DecidableRel sugGE :=
  fun x y => Real.decidableLE y.bits x.bits

instance : IsTotal Suggestion sugGE :=
  ⟨fun x y => le_total y.bits x.bits⟩

instance : IsTrans Suggestion sugGE :=
  ⟨fun _ _ _ hxy hyz => le_trans hyz hxy⟩

/-- Embedding of ent.sort((a, b) => b.bits - a.bits) at App.jsx line 142.
ECMAScript sort is stable, so with this comparator the result is the
unique stable descending reordering by bits; insertion sort along the
reflexive relation sugGE computes exactly that list. -/
noncomputable def sortSuggestions (l : List Suggestion) : List Suggestion :=
  List.insertionSort sugGE l

/-- Embedding of the ranking effect body (App.jsx lines 137-143): build a
suggestion for every candidate, sort, and keep the first ten. -/
noncomputable def topGuessesFor (cands : List String) : List Suggestion :=
  (sortSuggestions (cands.map (fun g => Suggestion.mk g (computeEntropyForGuess g cands)))).take 10

/-- Boolean lexicographic comparison of character lists, used to state
what the spec calls lexicographic order of words. -/
def lexLt : List Char → List Char → Bool
  | [], [] => false
  | [], _ :: _ => true
  | _ :: _, [] => false
  | c :: cs, d :: ds => if c < d then true else if d < c then false else lexLt cs ds

/-- Modelled from the spec: the lexicographically-first element of the
candidate set (spec section 4.4), an operation the repository does not
contain; none when the set is empty. -/
def lexFirst (candidates : List String) : Option String :=
  match candidates with
  | [] => none
  | w :: ws => some (ws.foldl (fun acc c => if lexLt c.data acc.data then c else acc) w)

/-! ## Basic list-state lemmas -/

lemma getD_set_self {α : Type _} (l : List α) (i : Nat) (v d : α) (h : i < l.length) :
    (l.set i v).getD i d = v := by
  simp [List.getD_eq_getElem?_getD, List.getElem?_set_self h]

lemma getD_set_ne {α : Type _} (l : List α) {i j : Nat} (v d : α) (h : i ≠ j) :
    (l.set i v).getD j d = l.getD j d := by
  simp [List.getD_eq_getElem?_getD, List.getElem?_set_ne h]

lemma getD_replicate {α : Type _} {n k : Nat} (x d : α) (h : k < n) :
    (List.replicate n x).getD k d = x := by
  simp [List.getD_eq_getElem?_getD, List.getElem?_replicate, h]

lemma set_self_of_getD {α : Type _} (l : List α) {i : Nat} {v d : α}
    (hlen : i < l.length) (hv : l.getD i d = v) : l.set i v = l := by
  apply List.ext_getElem?
  intro n
  rcases eq_or_ne i n with rfl | hne
  · rw [List.getElem?_set_self hlen, List.getElem?_eq_getElem hlen,
      ← List.getD_eq_getElem l d hlen, hv]
  · rw [List.getElem?_set_ne hne]

/-! ## Length preservation through the two passes -/

lemma scanLoop_lengths (gi : Option Char) (a : List Char) (i : Nat)
    (st : List Result × List Bool) (js : List Nat) :
    (scanLoop gi a i st js).1.length = st.1.length ∧
    (scanLoop gi a i st js).2.length = st.2.length := by
  induction js with
  | nil => exact ⟨rfl, rfl⟩
  | cons j js ih =>
    simp only [scanLoop]
    split
    · exact ih
    · split
      · simp [List.length_set]
      · exact ih

lemma pass2Step_lengths (g a : List Char) (st : List Result × List Bool) (i : Nat) :
    (pass2Step g a st i).1.length = st.1.length ∧
    (pass2Step g a st i).2.length = st.2.length := by
  unfold pass2Step
  split
  · exact ⟨rfl, rfl⟩
  · exact scanLoop_lengths _ _ _ _ _

lemma foldl_pass2_lengths (g a : List Char) (l : List Nat) (st : List Result × List Bool) :
    ((l.foldl (pass2Step g a) st).1.length = st.1.length ∧
     (l.foldl (pass2Step g a) st).2.length = st.2.length) := by
  induction l generalizing st with
  | nil => exact ⟨rfl, rfl⟩
  | cons i l ih =>
    rw [List.foldl_cons]
    obtain ⟨h1, h2⟩ := ih (pass2Step g a st i)
    obtain ⟨h3, h4⟩ := pass2Step_lengths g a st i
    exact ⟨h1.trans h3, h2.trans h4⟩

lemma pass1Step_lengths (g a : List Char) (st : List Result × List Bool) (i : Nat) :
    (pass1Step g a st i).1.length = st.1.length ∧
    (pass1Step g a st i).2.length = st.2.length := by
  unfold pass1Step
  split
  · simp [List.length_set]
  · exact ⟨rfl, rfl⟩

lemma foldl_pass1_lengths (g a : List Char) (l : List Nat) (st : List Result × List Bool) :
    ((l.foldl (pass1Step g a) st).1.length = st.1.length ∧
     (l.foldl (pass1Step g a) st).2.length = st.2.length) := by
  induction l generalizing st with
  | nil => exact ⟨rfl, rfl⟩
  | cons i l ih =>
    rw [List.foldl_cons]
    obtain ⟨h1, h2⟩ := ih (pass1Step g a st i)
    obtain ⟨h3, h4⟩ := pass1Step_lengths g a st i
    exact ⟨h1.trans h3, h2.trans h4⟩

lemma pass1_lengths (g a : List Char) : (pass1 g a).1.length = 5 ∧ (pass1 g a).2.length = 5 := by
  unfold pass1
  simpa using foldl_pass1_lengths g a (List.range 5)
    (List.replicate 5 Result.ABSENT, List.replicate 5 false)

lemma feedbackForL_length (g a : List Char) : (feedbackForL g a).length = 5 := by
  unfold feedbackForL
  rw [(foldl_pass2_lengths g a (List.range 5) (pass1 g a)).1, (pass1_lengths g a).1]

/-! ## The comparison and filtering predicates -/

lemma feedbackEq_iff {e a : List Result} : feedbackEq e a = true ↔ e = a := by
  unfold feedbackEq
  split
  case isTrue hne =>
    simp only [Bool.false_eq_true, false_iff]
    intro h
    exact hne (by rw [h])
  case isFalse hne =>
    have hlen : e.length = a.length := not_ne_iff.mp hne
    rw [List.all_eq_true]
    constructor
    · intro hall
      refine List.ext_get hlen ?_
      intro n h1 h2
      have hmem := hall n (List.mem_range.mpr h1)
      rw [beq_iff_eq, List.getD_eq_getElem e Result.ABSENT h1,
        List.getD_eq_getElem a Result.ABSENT h2] at hmem
      simpa using hmem
    · rintro rfl i hi
      simp

lemma mem_filterCandidates {words : List String} {history : List HistoryEntry} {c : String} :
    c ∈ filterCandidates words history ↔
      c ∈ words ∧ ∀ e ∈ history, feedbackFor e.guess c = e.feedback := by
  unfold filterCandidates
  by_cases hw : words.isEmpty = true
  · rw [if_pos hw]
    have h0 : words = [] := List.isEmpty_iff.mp hw
    subst h0
    simp
  · rw [if_neg hw]
    by_cases hh : history.isEmpty = true
    · rw [if_pos hh]
      have h0 : history = [] := List.isEmpty_iff.mp hh
      subst h0
      simp
    · rw [if_neg hh, List.mem_filter]
      unfold matchesAll
      rw [List.all_eq_true]
      constructor
      · rintro ⟨h1, h2⟩
        exact ⟨h1, fun e he => (feedbackEq_iff.mp (h2 e he)).symm⟩
      · rintro ⟨h1, h2⟩
        exact ⟨h1, fun e he => feedbackEq_iff.mpr (h2 e he).symm⟩

/-! ## Claim C1 -/

/-- C1: filterCandidates retains a candidate c exactly when every history
entry (g, f) satisfies feedbackFor g c = f; an empty dictionary yields an
empty result and an empty history yields the full dictionary. -/
theorem C1_filterCandidates_characterization
    (words : List String) (history : List HistoryEntry) (c : String) :
    (c ∈ filterCandidates words history ↔
      c ∈ words ∧ ∀ e ∈ history, feedbackFor e.guess c = e.feedback)
    ∧ filterCandidates [] history = []
    ∧ filterCandidates words [] = words := by
  refine ⟨mem_filterCandidates, rfl, ?_⟩
  cases words with
  | nil => rfl
  | cons w ws => rfl

/-! ## Claim C5 -/

/-- C5: a word in the dictionary survives filtering by the single history
entry built from the feedback it itself produces against any guess. -/
theorem C5_self_consistency (words : List String) (g w : String) (hw : w ∈ words) :
    w ∈ filterCandidates words [⟨g, feedbackFor g w⟩] := by
  refine mem_filterCandidates.mpr ⟨hw, ?_⟩
  intro e he
  rw [List.mem_singleton] at he
  subst he
  simp only []

/-- C5 witness: a concrete dictionary, guess and word. -/
theorem C5_self_consistency_witness :
    "crane" ∈ ["crane", "slate"] ∧
    "crane" ∈ filterCandidates ["crane", "slate"] [⟨"slate", feedbackFor "slate" "crane"⟩] :=
  ⟨by decide, C5_self_consistency ["crane", "slate"] "slate" "crane" (by decide)⟩

/-! ## Claim C6 -/

/-- C6: appending one history entry never adds a candidate; every member
of the filtered result for the longer history is a member of the filtered
result for the shorter one. -/
theorem C6_filter_monotone (d : List String) (h : List HistoryEntry) (e : HistoryEntry)
    (c : String) (hc : c ∈ filterCandidates d (h ++ [e])) : c ∈ filterCandidates d h := by
  obtain ⟨hcd, hall⟩ := mem_filterCandidates.mp hc
  exact mem_filterCandidates.mpr ⟨hcd, fun x hx => hall x (List.mem_append_left _ hx)⟩

/-- C6 witness: a concrete dictionary, history and appended entry. -/
theorem C6_filter_monotone_witness :
    "crane" ∈ filterCandidates ["crane", "slate"]
      ([] ++ [⟨"crane", feedbackFor "crane" "crane"⟩]) ∧
    "crane" ∈ filterCandidates ["crane", "slate"] [] :=
  ⟨by decide, C6_filter_monotone ["crane", "slate"] []
    ⟨"crane", feedbackFor "crane" "crane"⟩ "crane" (by decide)⟩

/-! ## Claim C8 -/

/-- C8 counterexample: on the candidate list with zzzzz before aaaaa the
code returns zzzzz, the first element, while the lexicographically-first
element of the set is aaaaa. -/
theorem C8_counterexample :
    mostLikelyCandidate ["zzzzz", "aaaaa"] = some "zzzzz" ∧
    lexFirst ["zzzzz", "aaaaa"] = some "aaaaa" ∧
    (some "zzzzz" : Option String) ≠ some "aaaaa" := by
  refine ⟨by decide, by decide, by decide⟩

/-- C8 amended: mostLikelyCandidate returns the first element of the
candidate list in its given order, and none on the empty list. -/
theorem C8_mostLikely_head :
    mostLikelyCandidate ([] : List String) = none ∧
    ∀ (x : String) (xs : List String), mostLikelyCandidate (x :: xs) = some x :=
  ⟨rfl, fun _ _ => rfl⟩

/-! ## Claim C9 -/

/-- C9 counterexample: a guess of length two is scored positionally
instead of being rejected; the engine produces an ordinary five-slot
feedback, marking the two in-range positions CORRECT. -/
theorem C9_counterexample :
    ("ab" : String).length ≠ 5 ∧
    feedbackFor "ab" "abcde" =
      [Result.CORRECT, Result.CORRECT, Result.ABSENT, Result.ABSENT, Result.ABSENT] :=
  ⟨by decide, by decide⟩

/-- C9 amended: the engine performs no length validation and signals no
failure; feedbackFor totally returns a five-slot feedback for inputs of
any length (missing positions compare like the undefined value), and
filterCandidates always returns a plain sublist of the dictionary.
Validation happens only in the caller (the applyGuess regular expression
and the word-list loader). -/
theorem C9_no_validation :
    (∀ g a : String, (feedbackFor g a).length = 5) ∧
    (∀ (words : List String) (history : List HistoryEntry),
      filterCandidates words history ⊆ words) := by
  constructor
  · intro g a
    exact feedbackForL_length g.data a.data
  · intro words history c hc
    exact (mem_filterCandidates.mp hc).1

/-! ## Claim C10 -/

/-- C10: the entropy of any guess over the empty candidate list is zero;
the empty set is a valid input at this boundary. -/
theorem C10_entropy_empty (g : String) : computeEntropyForGuess g [] = 0 := by
  simp [computeEntropyForGuess]

/-! ## The inner scan as a first-match search (claim C2) -/

lemma scanLoop_eq_find (gi : Option Char) (a : List Char) (i : Nat)
    (st : List Result × List Bool) (js : List Nat) :
    scanLoop gi a i st js =
      match js.find? (fun j => !(st.2.getD j false) && (gi == getJS a j)) with
      | some j => (st.1.set i Result.PRESENT, st.2.set j true)
      | none => st := by
  induction js with
  | nil => rfl
  | cons j js ih =>
    simp only [scanLoop, List.find?_cons]
    by_cases hu : st.2.getD j false = true
    · rw [if_pos hu, hu]
      simp only [Bool.not_true, Bool.false_and]
      exact ih
    · have hu' : st.2.getD j false = false := by
        revert hu
        cases st.2.getD j false <;> simp
      rw [if_neg hu, hu']
      simp only [Bool.not_false, Bool.true_and]
      by_cases he : gi = getJS a j
      · have hb : (gi == getJS a j) = true := by simp [he]
        rw [if_pos he, hb]
      · have hb : (gi == getJS a j) = false := beq_eq_false_iff_ne.mpr he
        rw [if_neg he, hb]
        exact ih

lemma pass2Step_eq_spec (g a : List Char) (st : List Result × List Bool) (i : Nat)
    (hnp : st.1.getD i Result.ABSENT ≠ Result.PRESENT) :
    pass2Step g a st i = pass2StepSpec g a st i := by
  unfold pass2Step pass2StepSpec findFirstUnused
  by_cases hc : st.1.getD i Result.ABSENT = Result.CORRECT
  · rw [if_pos hc, if_pos hc]
  · rw [if_neg hc, if_neg hc, scanLoop_eq_find]
    cases hf : (List.range 5).find? (fun j => !(st.2.getD j false) && (getJS g i == getJS a j)) with
    | some j => rfl
    | none =>
      show st = (st.1.set i Result.ABSENT, st.2)
      have hA : st.1.getD i Result.ABSENT = Result.ABSENT := by
        cases h : st.1.getD i Result.ABSENT with
        | CORRECT => exact absurd h hc
        | PRESENT => exact absurd h hnp
        | ABSENT => rfl
      rcases le_or_lt st.1.length i with hle | hlt
      · rw [List.set_eq_of_length_le hle]
      · rw [set_self_of_getD st.1 hlt hA]

lemma pass2Step_res_getD_ne (g a : List Char) (st : List Result × List Bool) (i : Nat)
    {k : Nat} (hik : i ≠ k) (d : Result) :
    (pass2Step g a st i).1.getD k d = st.1.getD k d := by
  unfold pass2Step
  split
  · rfl
  · rw [scanLoop_eq_find]
    cases (List.range 5).find? (fun j => !(st.2.getD j false) && (getJS g i == getJS a j)) with
    | some j => exact getD_set_ne st.1 Result.PRESENT d hik
    | none => rfl

lemma foldl_pass2_eq_spec (g a : List Char) :
    ∀ (l : List Nat) (st : List Result × List Bool),
      l.Nodup → (∀ i ∈ l, st.1.getD i Result.ABSENT ≠ Result.PRESENT) →
      l.foldl (pass2Step g a) st = l.foldl (pass2StepSpec g a) st := by
  intro l
  induction l with
  | nil => intro st _ _; rfl
  | cons i l ih =>
    intro st hnd hnp
    rw [List.foldl_cons, List.foldl_cons,
      ← pass2Step_eq_spec g a st i (hnp i (List.mem_cons_self i l))]
    refine ih (pass2Step g a st i) (List.nodup_cons.mp hnd).2 ?_
    intro k hk
    have hik : i ≠ k := by
      intro h
      exact (List.nodup_cons.mp hnd).1 (h ▸ hk)
    rw [pass2Step_res_getD_ne g a st i hik]
    exact hnp k (List.mem_cons_of_mem i hk)

/-! ## Characterization of the first pass -/

lemma foldl_pass1_res_getD (g a : List Char) :
    ∀ (l : List Nat) (st : List Result × List Bool) (k : Nat) (d : Result),
      k < st.1.length →
      (l.foldl (pass1Step g a) st).1.getD k d =
        if k ∈ l ∧ getJS g k = getJS a k then Result.CORRECT else st.1.getD k d := by
  intro l
  induction l with
  | nil =>
    intro st k d _
    simp
  | cons i l ih =>
    intro st k d hk
    rw [List.foldl_cons]
    have hk' : k < (pass1Step g a st i).1.length := by
      rw [(pass1Step_lengths g a st i).1]
      exact hk
    rw [ih (pass1Step g a st i) k d hk']
    by_cases hmem : k ∈ l ∧ getJS g k = getJS a k
    · rw [if_pos hmem, if_pos ⟨List.mem_cons_of_mem i hmem.1, hmem.2⟩]
    · rw [if_neg hmem]
      by_cases hik : k = i
      · subst hik
        by_cases hcond : getJS g k = getJS a k
        · rw [if_pos ⟨List.mem_cons_self k l, hcond⟩]
          unfold pass1Step
          rw [if_pos hcond]
          exact getD_set_self st.1 k Result.CORRECT d hk
        · have : ¬(k ∈ k :: l ∧ getJS g k = getJS a k) := fun h => hcond h.2
          rw [if_neg this]
          unfold pass1Step
          rw [if_neg hcond]
      · have : ¬(k ∈ i :: l ∧ getJS g k = getJS a k) := by
          intro h
          rcases List.mem_cons.mp h.1 with h1 | h1
          · exact hik h1
          · exact hmem ⟨h1, h.2⟩
        rw [if_neg this]
        unfold pass1Step
        split
        · exact getD_set_ne st.1 Result.CORRECT d (fun h => hik h.symm)
        · rfl

lemma foldl_pass1_used_getD (g a : List Char) :
    ∀ (l : List Nat) (st : List Result × List Bool) (k : Nat) (d : Bool),
      k < st.2.length →
      (l.foldl (pass1Step g a) st).2.getD k d =
        if k ∈ l ∧ getJS g k = getJS a k then true else st.2.getD k d := by
  intro l
  induction l with
  | nil =>
    intro st k d _
    simp
  | cons i l ih =>
    intro st k d hk
    rw [List.foldl_cons]
    have hk' : k < (pass1Step g a st i).2.length := by
      rw [(pass1Step_lengths g a st i).2]
      exact hk
    rw [ih (pass1Step g a st i) k d hk']
    by_cases hmem : k ∈ l ∧ getJS g k = getJS a k
    · rw [if_pos hmem, if_pos ⟨List.mem_cons_of_mem i hmem.1, hmem.2⟩]
    · rw [if_neg hmem]
      by_cases hik : k = i
      · subst hik
        by_cases hcond : getJS g k = getJS a k
        · rw [if_pos ⟨List.mem_cons_self k l, hcond⟩]
          unfold pass1Step
          rw [if_pos hcond]
          exact getD_set_self st.2 k true d hk
        · have : ¬(k ∈ k :: l ∧ getJS g k = getJS a k) := fun h => hcond h.2
          rw [if_neg this]
          unfold pass1Step
          rw [if_neg hcond]
      · have : ¬(k ∈ i :: l ∧ getJS g k = getJS a k) := by
          intro h
          rcases List.mem_cons.mp h.1 with h1 | h1
          · exact hik h1
          · exact hmem ⟨h1, h.2⟩
        rw [if_neg this]
        unfold pass1Step
        split
        · exact getD_set_ne st.2 true d (fun h => hik h.symm)
        · rfl

lemma pass1_res_getD (g a : List Char) (k : Nat) (hk : k < 5) :
    (pass1 g a).1.getD k Result.ABSENT =
      if getJS g k = getJS a k then Result.CORRECT else Result.ABSENT := by
  unfold pass1
  rw [foldl_pass1_res_getD g a (List.range 5)
    (List.replicate 5 Result.ABSENT, List.replicate 5 false) k Result.ABSENT (by simpa using hk)]
  by_cases hcond : getJS g k = getJS a k
  · rw [if_pos ⟨List.mem_range.mpr hk, hcond⟩, if_pos hcond]
  · rw [if_neg (fun h => hcond h.2), if_neg hcond]
    exact getD_replicate Result.ABSENT Result.ABSENT hk

lemma pass1_used_getD (g a : List Char) (k : Nat) (hk : k < 5) :
    (pass1 g a).2.getD k false =
      if getJS g k = getJS a k then true else false := by
  unfold pass1
  rw [foldl_pass1_used_getD g a (List.range 5)
    (List.replicate 5 Result.ABSENT, List.replicate 5 false) k false (by simpa using hk)]
  by_cases hcond : getJS g k = getJS a k
  · rw [if_pos ⟨List.mem_range.mpr hk, hcond⟩, if_pos hcond]
  · rw [if_neg (fun h => hcond h.2), if_neg hcond]
    exact getD_replicate false false hk

lemma pass1_res_ne_present (g a : List Char) (k : Nat) (hk : k < 5) :
    (pass1 g a).1.getD k Result.ABSENT ≠ Result.PRESENT := by
  rw [pass1_res_getD g a k hk]
  split <;> simp

/-! ## Claim C2 -/

/-- C2: for five-letter words, feedbackFor computes exactly the two-pass
algorithm of the spec: pass one marks and consumes positional matches,
pass two scans answer positions left-to-right and consumes the first
unconsumed match, marking PRESENT, otherwise ABSENT. -/
theorem C2_feedbackFor_follows_spec (g a : String)
    (hg : g.length = 5) (ha : a.length = 5) :
    feedbackFor g a = classifySpec g a := by
  unfold feedbackFor feedbackForL classifySpec
  rw [foldl_pass2_eq_spec g.data a.data (List.range 5) (pass1 g.data a.data)
    (List.nodup_range 5) ?_]
  intro i hi
  exact pass1_res_ne_present g.data a.data i (List.mem_range.mp hi)

/-- C2 witness: the two definitions agree on a concrete five-letter pair
with repeated letters. -/
theorem C2_feedbackFor_follows_spec_witness :
    ("sheep" : String).length = 5 ∧ ("speed" : String).length = 5 ∧
    feedbackFor "sheep" "speed" = classifySpec "sheep" "speed" :=
  ⟨by decide, by decide, C2_feedbackFor_follows_spec "sheep" "speed" (by decide) (by decide)⟩

/-! ## Entropy bounds (claim C4) -/

lemma list_toFinset_sum_count {α : Type _} [DecidableEq α] (l : List α) :
    ∑ k ∈ l.toFinset, l.count k = l.length := by
  simpa using Multiset.toFinset_sum_count_eq (l : Multiset α)

lemma entropyOfKeys_nonneg (keys : List String) :
    0 ≤ entropyOfKeys keys keys.length := by
  apply Finset.sum_nonneg
  intro k hk
  have hc1 : 0 < keys.count k := List.count_pos_iff.mpr (List.mem_toFinset.mp hk)
  have hn0 : 0 < keys.length := lt_of_lt_of_le hc1 (List.count_le_length k keys)
  have hnR : (0 : ℝ) < (keys.length : ℝ) := by exact_mod_cast hn0
  have hp0 : 0 ≤ ((keys.count k : ℝ) / (keys.length : ℝ)) :=
    div_nonneg (by positivity) (le_of_lt hnR)
  have hp1 : ((keys.count k : ℝ) / (keys.length : ℝ)) ≤ 1 := by
    rw [div_le_one hnR]
    exact_mod_cast List.count_le_length k keys
  have hlog : Real.logb 2 ((keys.count k : ℝ) / (keys.length : ℝ)) ≤ 0 :=
    Real.logb_nonpos one_lt_two hp0 hp1
  exact neg_nonneg.mpr (mul_nonpos_of_nonneg_of_nonpos hp0 hlog)

lemma entropyOfKeys_le_logb (keys : List String) (hne : keys ≠ []) :
    entropyOfKeys keys keys.length ≤ Real.logb 2 (keys.length : ℝ) := by
  have hn0 : 0 < keys.length := List.length_pos.mpr hne
  have hnR : (0 : ℝ) < (keys.length : ℝ) := by exact_mod_cast hn0
  have hcast : ∑ k ∈ keys.toFinset, ((keys.count k : ℕ) : ℝ) = (keys.length : ℝ) := by
    rw [← Nat.cast_sum, list_toFinset_sum_count]
  have hterm : ∀ k ∈ keys.toFinset, entTerm (keys.count k) keys.length =
      ((keys.count k : ℝ) / (keys.length : ℝ)) * Real.logb 2 (keys.length : ℝ)
      - ((keys.count k : ℝ) / (keys.length : ℝ)) * Real.logb 2 ((keys.count k : ℝ)) := by
    intro k hk
    have hc1 : 0 < keys.count k := List.count_pos_iff.mpr (List.mem_toFinset.mp hk)
    have hcR : (0 : ℝ) < ((keys.count k : ℕ) : ℝ) := by exact_mod_cast hc1
    unfold entTerm
    rw [Real.logb_div (ne_of_gt hcR) (ne_of_gt hnR)]
    ring
  rw [entropyOfKeys, Finset.sum_congr rfl hterm, Finset.sum_sub_distrib]
  have h1 : ∑ k ∈ keys.toFinset,
      ((keys.count k : ℝ) / (keys.length : ℝ)) * Real.logb 2 (keys.length : ℝ)
      = Real.logb 2 (keys.length : ℝ) := by
    rw [← Finset.sum_mul, ← Finset.sum_div, hcast, div_self (ne_of_gt hnR), one_mul]
  have h2 : 0 ≤ ∑ k ∈ keys.toFinset,
      ((keys.count k : ℝ) / (keys.length : ℝ)) * Real.logb 2 ((keys.count k : ℝ)) := by
    apply Finset.sum_nonneg
    intro k hk
    have hc1 : 0 < keys.count k := List.count_pos_iff.mpr (List.mem_toFinset.mp hk)
    apply mul_nonneg
    · exact div_nonneg (by positivity) (le_of_lt hnR)
    · exact Real.logb_nonneg one_lt_two (Nat.one_le_cast.mpr hc1)
  rw [h1]
  linarith

lemma entropyOfKeys_singleton (k : String) : entropyOfKeys [k] 1 = 0 := by
  simp [entropyOfKeys, entTerm, Real.logb_one]

/-! ## Claim C4 -/

/-- C4: for a non-empty candidate set of size n and a guess from it, the
computed entropy lies between 0 and log2 n, and equals 0 when n = 1. -/
theorem C4_entropy_bounds (guess : String) (candidates : List String)
    (hne : candidates ≠ []) (hmem : guess ∈ candidates) :
    (0 ≤ computeEntropyForGuess guess candidates ∧
      computeEntropyForGuess guess candidates ≤ Real.logb 2 (candidates.length : ℝ)) ∧
    (candidates.length = 1 → computeEntropyForGuess guess candidates = 0) := by
  have hI : ¬(candidates.isEmpty = true) := by simpa [List.isEmpty_iff] using hne
  have hklen : (candidates.map (fun ans => feedbackKey (feedbackFor guess ans))).length
      = candidates.length := List.length_map _ _
  have hkne : candidates.map (fun ans => feedbackKey (feedbackFor guess ans)) ≠ [] := by
    simpa using hne
  refine ⟨⟨?_, ?_⟩, ?_⟩
  · simp only [computeEntropyForGuess, if_neg hI]
    rw [← hklen]
    exact entropyOfKeys_nonneg _
  · simp only [computeEntropyForGuess, if_neg hI]
    rw [← hklen]
    exact entropyOfKeys_le_logb _ hkne
  · intro h1
    obtain ⟨x, hx⟩ := List.length_eq_one.mp h1
    subst hx
    exact entropyOfKeys_singleton (feedbackKey (feedbackFor guess x))

/-- C4 witness: a singleton candidate set. -/
theorem C4_entropy_bounds_witness :
    (["crane"] : List String) ≠ [] ∧ "crane" ∈ (["crane"] : List String) ∧
    ((0 ≤ computeEntropyForGuess "crane" ["crane"] ∧
      computeEntropyForGuess "crane" ["crane"] ≤
        Real.logb 2 (((["crane"] : List String).length : ℕ) : ℝ)) ∧
     ((["crane"] : List String).length = 1 → computeEntropyForGuess "crane" ["crane"] = 0)) :=
  ⟨by decide, by decide, C4_entropy_bounds "crane" ["crane"] (by decide) (by decide)⟩

/-! ## Claim C7 -/

/-- C7 counterexample: two suggestions with equal bits.  The sort keeps
them in input order, zzzzz before aaaaa, although aaaaa is
lexicographically smaller; reversing the input reverses the output, so
the result is not determined by the suggestion set alone and ties are not
broken lexicographically. -/
theorem C7_counterexample :
    sortSuggestions [⟨"zzzzz", 1⟩, ⟨"aaaaa", 1⟩] = [⟨"zzzzz", 1⟩, ⟨"aaaaa", 1⟩] ∧
    sortSuggestions [⟨"aaaaa", 1⟩, ⟨"zzzzz", 1⟩] = [⟨"aaaaa", 1⟩, ⟨"zzzzz", 1⟩] ∧
    lexLt ("aaaaa" : String).data ("zzzzz" : String).data = true ∧
    ([⟨"zzzzz", 1⟩, ⟨"aaaaa", 1⟩] : List Suggestion) ≠ [⟨"aaaaa", 1⟩, ⟨"zzzzz", 1⟩] := by
  refine ⟨?_, ?_, by decide, ?_⟩
  · simp [sortSuggestions, List.insertionSort, List.orderedInsert, sugGE]
  · simp [sortSuggestions, List.insertionSort, List.orderedInsert, sugGE]
  · intro h
    have h1 : (⟨"zzzzz", 1⟩ : Suggestion) = ⟨"aaaaa", 1⟩ := by
      injection h
    have h2 : ("zzzzz" : String) = "aaaaa" := congrArg Suggestion.guess h1
    exact absurd h2 (by decide)

/-- C7 amended: the selection step sorts descending by bits and is stable;
the output is a permutation of the input, sorted so that later entries
never have more bits, and a list of suggestions with all-equal bits is
returned unchanged (ties keep input order, which is candidate order, with
no lexicographic tie-break). -/
theorem C7_sort_stable_descending :
    (∀ l : List Suggestion, (sortSuggestions l).Perm l ∧
      List.Sorted sugGE (sortSuggestions l)) ∧
    (∀ (c : ℝ) (ws : List String),
      sortSuggestions (ws.map (fun w => Suggestion.mk w c))
        = ws.map (fun w => Suggestion.mk w c)) := by
  constructor
  · intro l
    exact ⟨List.perm_insertionSort sugGE l, List.sorted_insertionSort sugGE l⟩
  · intro c ws
    induction ws with
    | nil => rfl
    | cons w ws ih =>
      have hall : ∀ b ∈ ws.map (fun w => Suggestion.mk w c), sugGE (Suggestion.mk w c) b := by
        intro b hb
        obtain ⟨w', hw', rfl⟩ := List.mem_map.mp hb
        exact le_refl c
      unfold sortSuggestions at ih ⊢
      simp only [List.map_cons]
      rw [List.insertionSort_cons sugGE hall, ih]

/-! ## Counting lemmas for the duplicate-letter analysis (claim C3) -/

lemma countP_update_add_one {l : List Nat} {p q : Nat → Bool} {i : Nat}
    (hnd : l.Nodup) (hi : i ∈ l) (hpi : p i = false) (hqi : q i = true)
    (hother : ∀ k, k ≠ i → p k = q k) :
    l.countP q = l.countP p + 1 := by
  induction l with
  | nil => cases hi
  | cons j l ih =>
    rw [List.countP_cons, List.countP_cons]
    rcases List.mem_cons.mp hi with rfl | hi'
    · have hcong : l.countP p = l.countP q := by
        apply List.countP_congr
        intro k hk
        have hki : k ≠ i := by
          rintro rfl
          exact (List.nodup_cons.mp hnd).1 hk
        rw [hother k hki]
      rw [hpi, hqi, hcong]
      simp
    · have hji : j ≠ i := by
        rintro rfl
        exact (List.nodup_cons.mp hnd).1 hi'
      rw [← hother j hji, ih (List.nodup_cons.mp hnd).2 hi']
      omega

lemma two_le_countP {l : List Nat} {p : Nat → Bool} {i1 i2 : Nat}
    (hnd : l.Nodup) (h1 : i1 ∈ l) (h2 : i2 ∈ l) (hne : i1 ≠ i2)
    (hp1 : p i1 = true) (hp2 : p i2 = true) : 2 ≤ l.countP p := by
  induction l with
  | nil => cases h1
  | cons j l ih =>
    rw [List.countP_cons]
    rcases List.mem_cons.mp h1 with rfl | h1'
    · have h2' : i2 ∈ l := by
        rcases List.mem_cons.mp h2 with h | h
        · exact absurd h.symm hne
        · exact h
      have hpos : 0 < l.countP p := List.countP_pos_iff.mpr ⟨i2, h2', hp2⟩
      rw [if_pos hp1]
      omega
    · rcases List.mem_cons.mp h2 with rfl | h2'
      · have hpos : 0 < l.countP p := List.countP_pos_iff.mpr ⟨i1, h1', hp1⟩
        rw [if_pos hp2]
        omega
      · have := ih (List.nodup_cons.mp hnd).2 h1' h2'
        omega

lemma three_le_countP {l : List Nat} {p : Nat → Bool} {i1 i2 i3 : Nat}
    (hnd : l.Nodup) (h1 : i1 ∈ l) (h2 : i2 ∈ l) (h3 : i3 ∈ l)
    (h12 : i1 ≠ i2) (h13 : i1 ≠ i3) (h23 : i2 ≠ i3)
    (hp1 : p i1 = true) (hp2 : p i2 = true) (hp3 : p i3 = true) : 3 ≤ l.countP p := by
  induction l with
  | nil => cases h1
  | cons j l ih =>
    rw [List.countP_cons]
    have hnd' := (List.nodup_cons.mp hnd).2
    by_cases hj1 : i1 = j
    · subst hj1
      have h2' : i2 ∈ l := by
        rcases List.mem_cons.mp h2 with h | h
        · exact absurd h.symm h12
        · exact h
      have h3' : i3 ∈ l := by
        rcases List.mem_cons.mp h3 with h | h
        · exact absurd h.symm h13
        · exact h
      have := two_le_countP hnd' h2' h3' h23 hp2 hp3
      rw [if_pos hp1]
      omega
    · by_cases hj2 : i2 = j
      · subst hj2
        have h1' : i1 ∈ l := by
          rcases List.mem_cons.mp h1 with h | h
          · exact absurd h hj1
          · exact h
        have h3' : i3 ∈ l := by
          rcases List.mem_cons.mp h3 with h | h
          · exact absurd h.symm h23
          · exact h
        have := two_le_countP hnd' h1' h3' h13 hp1 hp3
        rw [if_pos hp2]
        omega
      · by_cases hj3 : i3 = j
        · subst hj3
          have h1' : i1 ∈ l := by
            rcases List.mem_cons.mp h1 with h | h
            · exact absurd h hj1
            · exact h
          have h2' : i2 ∈ l := by
            rcases List.mem_cons.mp h2 with h | h
            · exact absurd h hj2
            · exact h
          have := two_le_countP hnd' h1' h2' h12 hp1 hp2
          rw [if_pos hp3]
          omega
        · have h1' : i1 ∈ l := by
            rcases List.mem_cons.mp h1 with h | h
            · exact absurd h hj1
            · exact h
          have h2' : i2 ∈ l := by
            rcases List.mem_cons.mp h2 with h | h
            · exact absurd h hj2
            · exact h
          have h3' : i3 ∈ l := by
            rcases List.mem_cons.mp h3 with h | h
            · exact absurd h hj3
            · exact h
          have := ih hnd' h1' h2' h3'
          omega

lemma count_eq_countP_getPos {α : Type _} [DecidableEq α] (l : List α) (x : α) :
    l.count x = (List.range l.length).countP (fun i => l.get? i == some x) := by
  induction l with
  | nil => rfl
  | cons c t ih =>
    have hs : (List.range (t.length + 1)).countP (fun i => (c :: t).get? i == some x)
        = (List.range t.length).countP (fun i => (c :: t).get? (i + 1) == some x)
          + (if ((c :: t).get? 0 == some x) then 1 else 0) := by
      rw [List.range_succ_eq_map, List.countP_cons, List.countP_map]
      rfl
    show List.count x (c :: t) = _
    rw [List.count_cons]
    simp only [List.length_cons]
    rw [hs]
    simp only [List.get?_cons_succ, List.get?_cons_zero]
    rw [← ih]
    have hbeq : ∀ b1 b2 : Bool, b1 = b2 → (List.count x t + if b1 = true then 1 else 0)
        = List.count x t + if b2 = true then 1 else 0 := by
      rintro b1 b2 rfl
      rfl
    exact hbeq _ _ rfl

lemma exists_get?_of_mem {α : Type _} {x : α} {l : List α} (hx : x ∈ l) :
    ∃ j, j < l.length ∧ l.get? j = some x := by
  obtain ⟨n, hn⟩ := List.mem_iff_get?.mp hx
  obtain ⟨hlt, _⟩ := List.get?_eq_some.mp hn
  exact ⟨n, hlt, hn⟩

/-! ## The consumed-position invariant of the second pass -/

/-- Predicate over answer indices: consumed and holding letter x. -/
def usedP (a : List Char) (used : List Bool) (x : Char) : Nat → Bool :=
  fun j => used.getD j false && (getJS a j == some x)

/-- Number of consumed answer positions holding letter x. -/
def usedCount (a : List Char) (used : List Bool) (x : Char) : Nat :=
  (List.range 5).countP (usedP a used x)

/-- Predicate over guess indices: scored non-ABSENT and guessing letter x. -/
def hitP (g : List Char) (res : List Result) (x : Char) : Nat → Bool :=
  fun i => !(res.getD i Result.ABSENT == Result.ABSENT) && (getJS g i == some x)

/-- Number of guess positions holding letter x that scored non-ABSENT. -/
def hitCount (g : List Char) (res : List Result) (x : Char) : Nat :=
  (List.range 5).countP (hitP g res x)

lemma pass2Step_cases (g a : List Char) (st : List Result × List Bool) (i : Nat) :
    (st.1.getD i Result.ABSENT = Result.CORRECT ∧ pass2Step g a st i = st) ∨
    (st.1.getD i Result.ABSENT ≠ Result.CORRECT ∧
      (∀ j ∈ List.range 5, st.2.getD j false = true ∨ getJS g i ≠ getJS a j) ∧
      pass2Step g a st i = st) ∨
    (∃ j, j ∈ List.range 5 ∧ st.1.getD i Result.ABSENT ≠ Result.CORRECT ∧
      st.2.getD j false = false ∧ getJS g i = getJS a j ∧
      pass2Step g a st i = (st.1.set i Result.PRESENT, st.2.set j true)) := by
  by_cases hc : st.1.getD i Result.ABSENT = Result.CORRECT
  · left
    refine ⟨hc, ?_⟩
    unfold pass2Step
    rw [if_pos hc]
  · have hstep : pass2Step g a st i =
        match (List.range 5).find? (fun j => !(st.2.getD j false) && (getJS g i == getJS a j)) with
        | some j => (st.1.set i Result.PRESENT, st.2.set j true)
        | none => st := by
      unfold pass2Step
      rw [if_neg hc, scanLoop_eq_find]
    cases hf : (List.range 5).find? (fun j => !(st.2.getD j false) && (getJS g i == getJS a j)) with
    | none =>
      right; left
      refine ⟨hc, ?_, by rw [hstep, hf]⟩
      intro j hj
      have hnp := List.find?_eq_none.mp hf j hj
      by_cases hu : st.2.getD j false = true
      · exact Or.inl hu
      · right
        intro he
        apply hnp
        have hu' : st.2.getD j false = false := by
          revert hu
          cases st.2.getD j false <;> simp
        rw [hu', he]
        simp
    | some j =>
      right; right
      have hp := List.find?_some hf
      rw [Bool.and_eq_true] at hp
      refine ⟨j, List.mem_of_find?_eq_some hf, hc, ?_, ?_, by rw [hstep, hf]⟩
      · have h1 := hp.1
        rw [Bool.not_eq_true'] at h1
        exact h1
      · exact beq_iff_eq.mp hp.2

lemma pass2Step_used_mono (g a : List Char) (st : List Result × List Bool) (i j : Nat)
    (h : st.2.getD j false = true) : (pass2Step g a st i).2.getD j false = true := by
  rcases pass2Step_cases g a st i with ⟨_, heq⟩ | ⟨_, _, heq⟩ | ⟨j', _, _, _, _, heq⟩
  · rw [heq]; exact h
  · rw [heq]; exact h
  · rw [heq]
    by_cases hjj : j' = j
    · subst hjj
      rcases lt_or_le j' st.2.length with hlt | hle
      · exact getD_set_self st.2 j' true false hlt
      · rw [List.set_eq_of_length_le hle]
        exact h
    · rw [getD_set_ne st.2 true false hjj]
      exact h

lemma foldl_used_mono (g a : List Char) (l : List Nat) :
    ∀ (st : List Result × List Bool) (j : Nat), st.2.getD j false = true →
      (l.foldl (pass2Step g a) st).2.getD j false = true := by
  induction l with
  | nil => intro st j h; exact h
  | cons i l ih =>
    intro st j h
    rw [List.foldl_cons]
    exact ih _ j (pass2Step_used_mono g a st i j h)

lemma foldl_res_other (g a : List Char) (l : List Nat) :
    ∀ (st : List Result × List Bool) (k : Nat), k ∉ l →
      (l.foldl (pass2Step g a) st).1.getD k Result.ABSENT = st.1.getD k Result.ABSENT := by
  induction l with
  | nil => intro st k _; rfl
  | cons i l ih =>
    intro st k hk
    rw [List.foldl_cons, ih _ k (fun h => hk (List.mem_cons_of_mem i h))]
    refine pass2Step_res_getD_ne g a st i ?_ Result.ABSENT
    intro h
    exact hk (by rw [← h]; exact List.mem_cons_self i l)

lemma pass2Step_preserves_inv (g a : List Char) (hg : g.length = 5)
    (st : List Result × List Bool) (i : Nat) (hi : i < 5)
    (hlen1 : st.1.length = 5) (hlen2 : st.2.length = 5)
    (hnp : st.1.getD i Result.ABSENT ≠ Result.PRESENT)
    (hinv : ∀ x, usedCount a st.2 x = hitCount g st.1 x) (x : Char) :
    usedCount a (pass2Step g a st i).2 x = hitCount g (pass2Step g a st i).1 x := by
  rcases pass2Step_cases g a st i with ⟨_, heq⟩ | ⟨_, _, heq⟩ | ⟨j, hj, hc, hu, he, heq⟩
  · rw [heq]; exact hinv x
  · rw [heq]; exact hinv x
  · rw [heq]
    have hj5 : j < 5 := List.mem_range.mp hj
    have hA : st.1.getD i Result.ABSENT = Result.ABSENT := by
      cases hv : st.1.getD i Result.ABSENT with
      | CORRECT => exact absurd hv hc
      | PRESENT => exact absurd hv hnp
      | ABSENT => rfl
    have hgl : i < g.length := by rw [hg]; exact hi
    obtain ⟨ci, hci⟩ : ∃ c, getJS g i = some c := ⟨g.get ⟨i, hgl⟩, List.get?_eq_get hgl⟩
    have haj : getJS a j = some ci := by rw [← he]; exact hci
    by_cases hx : x = ci
    · have hci' : getJS g i = some x := by rw [hx]; exact hci
      have haj' : getJS a j = some x := by rw [hx]; exact haj
      have hL : usedCount a (st.2.set j true) x = usedCount a st.2 x + 1 := by
        apply countP_update_add_one (List.nodup_range 5) hj
        · show usedP a st.2 x j = false
          simp only [usedP]
          rw [hu]
          rfl
        · show usedP a (st.2.set j true) x j = true
          simp only [usedP]
          rw [haj', getD_set_self st.2 j true false (by rw [hlen2]; exact hj5)]
          simp
        · intro k hk
          show usedP a st.2 x k = usedP a (st.2.set j true) x k
          simp only [usedP]
          rw [getD_set_ne st.2 true false (fun h => hk h.symm)]
      have hR : hitCount g (st.1.set i Result.PRESENT) x = hitCount g st.1 x + 1 := by
        apply countP_update_add_one (List.nodup_range 5) (List.mem_range.mpr hi)
        · show hitP g st.1 x i = false
          simp only [hitP]
          rw [hA]
          rfl
        · show hitP g (st.1.set i Result.PRESENT) x i = true
          simp only [hitP]
          rw [getD_set_self st.1 i Result.PRESENT Result.ABSENT (by rw [hlen1]; exact hi), hci']
          simp
        · intro k hk
          show hitP g st.1 x k = hitP g (st.1.set i Result.PRESENT) x k
          simp only [hitP]
          rw [getD_set_ne st.1 Result.PRESENT Result.ABSENT (fun h => hk h.symm)]
      rw [hL, hR, hinv x]
    · have hL : usedCount a (st.2.set j true) x = usedCount a st.2 x := by
        apply List.countP_congr
        intro k hk
        simp only [usedP]
        by_cases hkj : k = j
        · subst hkj
          rw [getD_set_self st.2 k true false (by rw [hlen2]; exact List.mem_range.mp hk),
            haj, hu]
          simp [Ne.symm hx]
        · rw [getD_set_ne st.2 true false (fun h => hkj h.symm)]
      have hR : hitCount g (st.1.set i Result.PRESENT) x = hitCount g st.1 x := by
        apply List.countP_congr
        intro k hk
        simp only [hitP]
        by_cases hki : k = i
        · subst hki
          rw [getD_set_self st.1 k Result.PRESENT Result.ABSENT
            (by rw [hlen1]; exact List.mem_range.mp hk), hA, hci]
          simp [Ne.symm hx]
        · rw [getD_set_ne st.1 Result.PRESENT Result.ABSENT (fun h => hki h.symm)]
      rw [hL, hR, hinv x]

lemma foldl_preserves_inv (g a : List Char) (hg : g.length = 5) :
    ∀ (l : List Nat) (st : List Result × List Bool), l.Nodup → (∀ i ∈ l, i < 5) →
      st.1.length = 5 → st.2.length = 5 →
      (∀ i ∈ l, st.1.getD i Result.ABSENT ≠ Result.PRESENT) →
      (∀ x, usedCount a st.2 x = hitCount g st.1 x) →
      ∀ x, usedCount a ((l.foldl (pass2Step g a) st)).2 x
        = hitCount g ((l.foldl (pass2Step g a) st)).1 x := by
  intro l
  induction l with
  | nil => intro st _ _ _ _ _ hinv x; exact hinv x
  | cons i l ih =>
    intro st hnd h5 hl1 hl2 hnp hinv x
    rw [List.foldl_cons]
    exact ih (pass2Step g a st i) (List.nodup_cons.mp hnd).2
      (fun k hk => h5 k (List.mem_cons_of_mem i hk))
      ((pass2Step_lengths g a st i).1.trans hl1)
      ((pass2Step_lengths g a st i).2.trans hl2)
      (fun k hk => by
        have hik : i ≠ k := by
          rintro rfl
          exact (List.nodup_cons.mp hnd).1 hk
        rw [pass2Step_res_getD_ne g a st i hik]
        exact hnp k (List.mem_cons_of_mem i hk))
      (fun y => pass2Step_preserves_inv g a hg st i (h5 i (List.mem_cons_self i l)) hl1 hl2
        (hnp i (List.mem_cons_self i l)) hinv y)
      x

lemma pass1_inv (g a : List Char) (x : Char) :
    usedCount a (pass1 g a).2 x = hitCount g (pass1 g a).1 x := by
  unfold usedCount hitCount
  apply List.countP_congr
  intro k hk
  have hk5 := List.mem_range.mp hk
  simp only [usedP, hitP]
  rw [pass1_used_getD g a k hk5, pass1_res_getD g a k hk5]
  by_cases hcond : getJS g k = getJS a k
  · rw [if_pos hcond, if_pos hcond, hcond]
    simp
  · rw [if_neg hcond, if_neg hcond]
    simp

lemma foldl_no_missed (g a : List Char) :
    ∀ (l : List Nat) (st : List Result × List Bool), l.Nodup → (∀ i ∈ l, i < 5) →
      st.1.length = 5 →
      ∀ i ∈ l, (l.foldl (pass2Step g a) st).1.getD i Result.ABSENT = Result.ABSENT →
      ∀ j, j < 5 → getJS a j = getJS g i →
      (l.foldl (pass2Step g a) st).2.getD j false = true := by
  intro l
  induction l with
  | nil =>
    intro st _ _ _ i hi
    cases hi
  | cons i0 l ih =>
    intro st hnd h5 hl1 i hi hres j hj haj
    rw [List.foldl_cons] at hres ⊢
    rcases List.mem_cons.mp hi with heq0 | hi'
    · subst heq0
      have hi0l : i ∉ l := (List.nodup_cons.mp hnd).1
      have hres' : (pass2Step g a st i).1.getD i Result.ABSENT = Result.ABSENT := by
        rw [← foldl_res_other g a l (pass2Step g a st i) i hi0l]
        exact hres
      rcases pass2Step_cases g a st i with ⟨hc, heq⟩ | ⟨hc, hall, heq⟩ | ⟨j', hj', hc, hu, he, heq⟩
      · rw [heq] at hres'
        exact absurd (hc.symm.trans hres') (by decide)
      · rw [heq] at hres' ⊢
        have hu : st.2.getD j false = true := by
          rcases hall j (List.mem_range.mpr hj) with h | h
          · exact h
          · exact absurd haj.symm h
        exact foldl_used_mono g a l st j hu
      · rw [heq] at hres'
        have hset : (st.1.set i Result.PRESENT).getD i Result.ABSENT = Result.PRESENT :=
          getD_set_self st.1 i Result.PRESENT Result.ABSENT
            (by rw [hl1]; exact h5 i (List.mem_cons_self i l))
        exact absurd (hset.symm.trans hres') (by decide)
    · exact ih (pass2Step g a st i0) (List.nodup_cons.mp hnd).2
        (fun k hk => h5 k (List.mem_cons_of_mem i0 hk))
        ((pass2Step_lengths g a st i0).1.trans hl1)
        i hi' hres j hj haj

lemma feedbackForL_dup (g a : List Char) (x : Char) (i1 i2 : Nat)
    (hg : g.length = 5) (ha : a.length = 5) (hne : i1 ≠ i2)
    (h1 : g.get? i1 = some x) (h2 : g.get? i2 = some x)
    (hcg : g.count x = 2) (hca : a.count x = 1) :
    (((feedbackForL g a).getD i1 Result.ABSENT ≠ Result.ABSENT ∧
      (feedbackForL g a).getD i2 Result.ABSENT = Result.ABSENT) ∨
     ((feedbackForL g a).getD i1 Result.ABSENT = Result.ABSENT ∧
      (feedbackForL g a).getD i2 Result.ABSENT ≠ Result.ABSENT)) ∧
    ¬((feedbackForL g a).getD i1 Result.ABSENT = Result.PRESENT ∧
      (feedbackForL g a).getD i2 Result.ABSENT = Result.PRESENT) := by
  have hi1 : i1 < 5 := by
    obtain ⟨h, _⟩ := List.get?_eq_some.mp h1
    rw [hg] at h
    exact h
  have hi2 : i2 < 5 := by
    obtain ⟨h, _⟩ := List.get?_eq_some.mp h2
    rw [hg] at h
    exact h
  have hl1 : (pass1 g a).1.length = 5 := (pass1_lengths g a).1
  have hl2 : (pass1 g a).2.length = 5 := (pass1_lengths g a).2
  rw [show feedbackForL g a = ((List.range 5).foldl (pass2Step g a) (pass1 g a)).1 from rfl]
  set stF : List Result × List Bool := (List.range 5).foldl (pass2Step g a) (pass1 g a)
    with hstF
  have hinvF : ∀ y, usedCount a ((List.range 5).foldl (pass2Step g a) (pass1 g a)).2 y
      = hitCount g ((List.range 5).foldl (pass2Step g a) (pass1 g a)).1 y :=
    foldl_preserves_inv g a hg (List.range 5) (pass1 g a) (List.nodup_range 5)
      (fun i hi => List.mem_range.mp hi) hl1 hl2
      (fun i hi => pass1_res_ne_present g a i (List.mem_range.mp hi))
      (pass1_inv g a)
  rw [← hstF] at hinvF
  have hgp1 : (g.get? i1 == some x) = true := by
    rw [h1]
    exact beq_self_eq_true _
  have hgp2 : (g.get? i2 == some x) = true := by
    rw [h2]
    exact beq_self_eq_true _
  have hamo : ¬(stF.1.getD i1 Result.ABSENT ≠ Result.ABSENT ∧
      stF.1.getD i2 Result.ABSENT ≠ Result.ABSENT) := by
    rintro ⟨hn1, hn2⟩
    have hp1 : hitP g stF.1 x i1 = true := by
      simp only [hitP]
      rw [beq_eq_false_iff_ne.mpr hn1, (show (getJS g i1 == some x) = true from hgp1)]
      rfl
    have hp2 : hitP g stF.1 x i2 = true := by
      simp only [hitP]
      rw [beq_eq_false_iff_ne.mpr hn2, (show (getJS g i2 == some x) = true from hgp2)]
      rfl
    have h2le : 2 ≤ (List.range 5).countP (hitP g stF.1 x) :=
      two_le_countP (List.nodup_range 5) (List.mem_range.mpr hi1) (List.mem_range.mpr hi2)
        hne hp1 hp2
    have hble : hitCount g stF.1 x ≤ 1 := by
      rw [← hinvF x]
      have hmono : usedCount a stF.2 x
          ≤ (List.range 5).countP (fun j => a.get? j == some x) := by
        unfold usedCount
        apply List.countP_mono_left
        intro k hk hpk
        simp only [usedP] at hpk
        rw [Bool.and_eq_true] at hpk
        exact hpk.2
      have hcnt : (List.range 5).countP (fun j => a.get? j == some x) = 1 := by
        have hc := count_eq_countP_getPos a x
        rw [ha] at hc
        rw [← hc]
        exact hca
      rw [hcnt] at hmono
      exact hmono
    have h2le' : 2 ≤ hitCount g stF.1 x := h2le
    omega
  have halo : ¬(stF.1.getD i1 Result.ABSENT = Result.ABSENT ∧
      stF.1.getD i2 Result.ABSENT = Result.ABSENT) := by
    rintro ⟨hz1, hz2⟩
    have hcg' : (List.range 5).countP (fun i => g.get? i == some x) = 2 := by
      have hc := count_eq_countP_getPos g x
      rw [hg] at hc
      rw [← hc]
      exact hcg
    have honly : ∀ k, k < 5 → (g.get? k == some x) = true → k = i1 ∨ k = i2 := by
      intro k hk hpk
      by_contra hcon
      push_neg at hcon
      have h3 : 3 ≤ (List.range 5).countP (fun i => g.get? i == some x) :=
        three_le_countP (List.nodup_range 5) (List.mem_range.mpr hi1)
          (List.mem_range.mpr hi2) (List.mem_range.mpr hk) hne
          (fun h => hcon.1 h.symm) (fun h => hcon.2 h.symm) hgp1 hgp2 hpk
      omega
    have hhit0 : hitCount g stF.1 x = 0 := by
      unfold hitCount
      rw [List.countP_eq_zero]
      intro k hk hpk
      simp only [hitP] at hpk
      rw [Bool.and_eq_true] at hpk
      obtain ⟨hpa, hpb⟩ := hpk
      have hk5 := List.mem_range.mp hk
      rcases honly k hk5 hpb with rfl | rfl
      · rw [hz1] at hpa
        simp at hpa
      · rw [hz2] at hpa
        simp at hpa
    have hxmem : x ∈ a := List.count_pos_iff.mp (by rw [hca]; exact Nat.one_pos)
    obtain ⟨j0, hj0len, hj0⟩ := exists_get?_of_mem hxmem
    have hj05 : j0 < 5 := by
      rw [← ha]
      exact hj0len
    have hz1f : ((List.range 5).foldl (pass2Step g a) (pass1 g a)).1.getD i1 Result.ABSENT
        = Result.ABSENT := by
      rw [← hstF]
      exact hz1
    have hletters : getJS a j0 = getJS g i1 := by
      rw [(show getJS a j0 = some x from hj0), (show getJS g i1 = some x from h1)]
    have hused := foldl_no_missed g a (List.range 5) (pass1 g a) (List.nodup_range 5)
      (fun i hi => List.mem_range.mp hi) hl1 i1 (List.mem_range.mpr hi1) hz1f j0 hj05 hletters
    rw [← hstF] at hused
    have hupos : 0 < usedCount a stF.2 x := by
      unfold usedCount
      apply List.countP_pos_iff.mpr
      refine ⟨j0, List.mem_range.mpr hj05, ?_⟩
      simp only [usedP]
      rw [hused, (show getJS a j0 = some x from hj0)]
      simp
    rw [hinvF x, hhit0] at hupos
    exact Nat.lt_irrefl 0 hupos
  refine ⟨?_, ?_⟩
  · by_cases hc1 : stF.1.getD i1 Result.ABSENT = Result.ABSENT
    · right
      exact ⟨hc1, fun h => halo ⟨hc1, h⟩⟩
    · left
      refine ⟨hc1, ?_⟩
      by_contra hc2
      exact hamo ⟨hc1, hc2⟩
  · rintro ⟨hP1, hP2⟩
    exact hamo ⟨fun h => absurd (hP1.symm.trans h) (by decide),
      fun h => absurd (hP2.symm.trans h) (by decide)⟩

/-! ## Claim C3 -/

/-- C3: when the guess holds the same letter at two positions, with
exactly two occurrences in the guess, and the answer holds exactly one
occurrence of that letter, feedbackFor marks exactly one of the two guess
positions non-ABSENT (PRESENT, or CORRECT when positionally matched) and
the other ABSENT, and never marks both PRESENT. -/
theorem C3_duplicate_letter (g a : String) (x : Char) (i1 i2 : Nat)
    (hg : g.length = 5) (ha : a.length = 5) (hne : i1 ≠ i2)
    (h1 : g.data.get? i1 = some x) (h2 : g.data.get? i2 = some x)
    (hcg : g.data.count x = 2) (hca : a.data.count x = 1) :
    (((feedbackFor g a).getD i1 Result.ABSENT ≠ Result.ABSENT ∧
      (feedbackFor g a).getD i2 Result.ABSENT = Result.ABSENT) ∨
     ((feedbackFor g a).getD i1 Result.ABSENT = Result.ABSENT ∧
      (feedbackFor g a).getD i2 Result.ABSENT ≠ Result.ABSENT)) ∧
    ¬((feedbackFor g a).getD i1 Result.ABSENT = Result.PRESENT ∧
      (feedbackFor g a).getD i2 Result.ABSENT = Result.PRESENT) :=
  feedbackForL_dup g.data a.data x i1 i2 hg ha hne h1 h2 hcg hca

/-- C3 witness: guess aabcd against answer aqrst; the letter a occurs
twice in the guess (positions 0 and 1) and once in the answer. -/
theorem C3_duplicate_letter_witness :
    ("aabcd" : String).length = 5 ∧ ("aqrst" : String).length = 5 ∧ (0 : Nat) ≠ 1 ∧
    ("aabcd" : String).data.get? 0 = some 'a' ∧ ("aabcd" : String).data.get? 1 = some 'a' ∧
    ("aabcd" : String).data.count 'a' = 2 ∧ ("aqrst" : String).data.count 'a' = 1 ∧
    ((((feedbackFor "aabcd" "aqrst").getD 0 Result.ABSENT ≠ Result.ABSENT ∧
       (feedbackFor "aabcd" "aqrst").getD 1 Result.ABSENT = Result.ABSENT) ∨
      ((feedbackFor "aabcd" "aqrst").getD 0 Result.ABSENT = Result.ABSENT ∧
       (feedbackFor "aabcd" "aqrst").getD 1 Result.ABSENT ≠ Result.ABSENT)) ∧
     ¬((feedbackFor "aabcd" "aqrst").getD 0 Result.ABSENT = Result.PRESENT ∧
       (feedbackFor "aabcd" "aqrst").getD 1 Result.ABSENT = Result.PRESENT)) :=
  ⟨by decide, by decide, by decide, by decide, by decide, by decide, by decide,
    C3_duplicate_letter "aabcd" "aqrst" 'a' 0 1 (by decide) (by decide) (by decide)
      (by decide) (by decide) (by decide) (by decide)⟩

end Wordle
